import Mathlib

/-!
Shallow embedding of `src/Rational.ts` (the `Rational` exact rational-number
class) and of the external collaborators it consumes (`bigint` helpers and the
`Decimal` value type, which are not part of the source under verification and
are therefore modelled from the spec).

Conventions of the embedding:
* JS `bigint` is modelled as `Int`.
* JS strings are modelled as `List Char`.
* Methods that can `throw` return `Except RationalError _`; the thrown
  `Error` messages of the source are mapped to the spec's error kinds
  (`InvalidOperand`, `DivisionByZero`, `EmptyInput`, `MalformedInput`).
* The interning cache is provably inert: `Rational.addToCache` begins with an
  unconditional `return`, so the `cache` map is never populated and
  `Rational.getFromCache` misses on every reachable state.  The parsing and
  construction entry points are therefore embedded without the (no-op) cache
  consultation; the cache itself is modelled separately as explicit state.
* The `ZERO` instance's identity (`this === Rational.ZERO`, and the
  monkey-patched `inverted` getter installed on that one instance) is modelled
  as structural equality with `⟨0, 1⟩`: the private constructor is reachable
  only through `create`, which returns the `ZERO` singleton for every
  zero-valued result, so on reachable values instance identity and structural
  equality with `⟨0, 1⟩` coincide.
-/

/-- Modelled from the spec: the named rounding policies of the external
`bigint` module — truncation toward zero (the default), away-from-zero,
floor and ceiling. -/
inductive RoundMethod where
  | toZero
  | fromZero
  | floor
  | ceil
deriving DecidableEq

namespace bigint

/-- Modelled from the spec: absolute value of a big integer. -/
def abs (a : Int) : Int := (a.natAbs : Int)

/-- Modelled from the spec: greatest common divisor of two big integers
(non-negative). -/
def gcd (a b : Int) : Int := (Int.gcd a b : Int)

/-- Modelled from the spec: `divide(a, b, method)` performs integer division
under a named rounding method; the magnitude of the `toZero` quotient is
`|a| / |b|` rounded down, with the sign of `a * b`. -/
def divide (a b : Int) (m : RoundMethod) : Int :=
  match m with
  | .toZero => Int.sign a * Int.sign b * ((a.natAbs / b.natAbs : Nat) : Int)
  | .fromZero => Int.sign a * Int.sign b * (((a.natAbs + b.natAbs - 1) / b.natAbs : Nat) : Int)
  | .floor => Int.fdiv a b
  | .ceil => -(Int.fdiv (-a) b)

/-- Modelled from the spec: `e(x, k, method)` is power-of-ten scaling —
multiplication by `10 ^ k` for `k ≥ 0`, rounding division by `10 ^ (-k)`
under the given method for `k < 0`. -/
def e (x : Int) (k : Int) (m : RoundMethod) : Int :=
  if 0 ≤ k then x * (10 : Int) ^ k.toNat
  else divide x ((10 : Int) ^ (-k).toNat) m

end bigint

/-- Modelled from the spec: the external `Decimal` value type — a signed
integer significand and an integer exponent, denoting
`significand × 10 ^ exponent`. -/
structure Decimal where
  significand : Int
  exponent : Int
deriving DecidableEq

/-- Modelled from the spec: the zero decimal. -/
def Decimal.ZERO : Decimal := ⟨0, 0⟩

/-- Modelled from the spec: `Decimal.fromBigInt` builds the decimal with the
given significand and exponent. -/
def Decimal.fromBigInt (significand exponent : Int) : Decimal :=
  ⟨significand, exponent⟩

/-- The error kinds of the spec; the source throws `Error` objects whose
messages correspond one-to-one to these kinds. -/
inductive RationalError where
  | invalidOperand
  | divisionByZero
  | emptyInput
  | malformedInput
deriving DecidableEq

instance {ε α : Type} [DecidableEq ε] [DecidableEq α] : DecidableEq (Except ε α) :=
fun a b =>
  match a, b with
  | .ok x, .ok y => decidable_of_iff (x = y) (by simp)
  | .ok _, .error _ => isFalse (by intro h; exact Except.noConfusion h)
  | .error _, .ok _ => isFalse (by intro h; exact Except.noConfusion h)
  | .error x, .error y => decidable_of_iff (x = y) (by simp)

/-- The `Rational` class of `src/Rational.ts`: an immutable pair of a bigint
numerator and a bigint denominator (the private constructor's default
denominator is `1`). -/
structure Rational where
  numerator : Int
  denominator : Int
deriving DecidableEq

namespace Rational

/-- `Rational.ZERO = new Rational(BigInt(0))`. -/
def ZERO : Rational := ⟨0, 1⟩

/-- `Rational.ONE = new Rational(BigInt(1))`. -/
def ONE : Rational := ⟨1, 1⟩

/-- `Rational.create`: the canonicalizing factory.  The source tests the
numerator for truthiness first; only a nonzero numerator reaches the
`denominator <= 0` guard.  (The cache consultation keyed by
`"numerator/denominator"` is omitted: the cache is never populated, so the
lookup misses on every reachable state.) -/
def create (numerator denominator : Int) : Except RationalError Rational :=
  if numerator ≠ 0 then
    if denominator ≤ 0 then
      .error .invalidOperand
    else
      let gcd2 := bigint.gcd numerator denominator
      let numerator2 := bigint.divide numerator gcd2 .toZero
      let denominator2 := bigint.divide denominator gcd2 .toZero
      .ok ⟨numerator2, denominator2⟩
  else
    .ok ZERO

/-- `get negative() { return this.numerator < 0 }`. -/
def negative (a : Rational) : Bool := a.numerator < 0

/-- `add`: `create(a.num*b.den + b.num*a.den, a.den*b.den)`. -/
def add (a b : Rational) : Except RationalError Rational :=
  create (a.numerator * b.denominator + b.numerator * a.denominator)
    (a.denominator * b.denominator)

/-- `get negated() { return create(-num, den) }`. -/
def negated (a : Rational) : Except RationalError Rational :=
  create (-a.numerator) a.denominator

/-- `sub(b) = add(b.negated)`. -/
def sub (a b : Rational) : Except RationalError Rational := do
  add a (← negated b)

/-- `mul`: `create(a.num*b.num, a.den*b.den)`. -/
def mul (a b : Rational) : Except RationalError Rational :=
  create (a.numerator * b.numerator) (a.denominator * b.denominator)

/-- `get inverted()`: on the `ZERO` singleton the monkey-patched getter throws
`DivisionByZero`; otherwise `create(negative ? -den : den, abs(num))`. -/
def inverted (a : Rational) : Except RationalError Rational :=
  if a = ZERO then .error .divisionByZero
  else create (if a.negative then -a.denominator else a.denominator)
    (bigint.abs a.numerator)

/-- `div(b) = mul(b.inverted)`. -/
def div (a b : Rational) : Except RationalError Rational := do
  mul a (← inverted b)

/-- `get abs() { return this.negative ? this.negated : this }`. -/
def absR (a : Rational) : Except RationalError Rational :=
  if a.negative then negated a else .ok a

/-- `cmp`: when the `negative` flags agree, compare the cross products
`a.num*b.den` and `b.num*a.den`; otherwise the negative operand is smaller. -/
def cmp (a b : Rational) : Int :=
  if a.negative = b.negative then
    if a.numerator * b.denominator < b.numerator * a.denominator then -1
    else if a.numerator * b.denominator > b.numerator * a.denominator then 1
    else 0
  else if a.negative then -1
  else 1

/-- `eq(b) = !cmp(b)` (truthiness: `cmp` result `0` is falsy). -/
def eq (a b : Rational) : Bool := cmp a b == 0

/-- `ne(b) = !!cmp(b)`. -/
def ne (a b : Rational) : Bool := !(cmp a b == 0)

/-- `lt(b) = cmp(b) === -1`. -/
def lt (a b : Rational) : Bool := cmp a b == -1

/-- `le(b) = cmp(b) !== 1`. -/
def le (a b : Rational) : Bool := !(cmp a b == 1)

/-- `gt(b) = cmp(b) === 1`. -/
def gt (a b : Rational) : Bool := cmp a b == 1

/-- `ge(b) = cmp(b) !== -1`. -/
def ge (a b : Rational) : Bool := !(cmp a b == -1)

/-- `Rational.min`: `reduce` over the variadic list by pairwise `lt` (JS
`reduce` of an empty array with no initial value throws; modelled as an
`emptyInput` error). -/
def min (l : List Rational) : Except RationalError Rational :=
  match l with
  | [] => .error .emptyInput
  | x :: xs => .ok (xs.foldl (fun acc r => if lt acc r then acc else r) x)

/-- `Rational.max`: `reduce` over the variadic list by pairwise `gt`. -/
def max (l : List Rational) : Except RationalError Rational :=
  match l with
  | [] => .error .emptyInput
  | x :: xs => .ok (xs.foldl (fun acc r => if gt acc r then acc else r) x)

/-- `Rational.sum`: left fold with `add`, seeded at `ZERO`. -/
def sum (l : List Rational) : Except RationalError Rational :=
  l.foldlM add ZERO

/-- Modelled from the spec: `D(n)`/`fromNumber` convert a native number
through `Decimal`; an integer count `n` becomes significand `n`, exponent
`0`. -/
def D (n : Int) : Decimal := ⟨n, 0⟩

/-- `fromDecimal`: numerator `significand × 10^max(exponent, 0)`, denominator
`10^max(-exponent, 0)`, passed to `create`. -/
def fromDecimal (d : Decimal) : Except RationalError Rational :=
  create (bigint.e d.significand (if d.exponent > 0 then d.exponent else 0) .toZero)
    (bigint.e 1 (if d.exponent < 0 then -d.exponent else 0) .toZero)

/-- `fromNumber`, restricted to the integer inputs the claims exercise. -/
def fromNumber (n : Int) : Except RationalError Rational :=
  fromDecimal (D n)

/-- `Rational.avg = sum(...) / R(count)`. -/
def avg (l : List Rational) : Except RationalError Rational := do
  div (← sum l) (← fromNumber (l.length : Int))

/-- `Rational.median`: on a non-empty list, sort by `cmp` (JS `Array.sort`
with the `cmp` comparator; modelled as the stable `insertionSort`), then take
the middle element (odd length, `length >> 1`) or the `avg` of the two middle
elements (even length); on an empty list throw `EmptyInput`.  The indices
`half` and `half - 1` are always in range, so `getD`'s default is never
used. -/
def median (l : List Rational) : Except RationalError Rational :=
  if l.length ≠ 0 then
    let sorted := List.insertionSort (fun a b => cmp a b ≤ 0) l
    let half := sorted.length / 2
    if sorted.length % 2 = 1 then .ok (sorted.getD half ZERO)
    else avg [sorted.getD (half - 1) ZERO, sorted.getD half ZERO]
  else .error .emptyInput

/-- `roundByRational(unit, method)`: `k = divide(q.num, q.den, method)` for
`q = a / unit`, result `create(unit.num * k, unit.den)`. -/
def roundByRational (a unit : Rational) (m : RoundMethod) : Except RationalError Rational := do
  let division ← div a unit
  let numerator2 := bigint.divide division.numerator division.denominator m
  create (unit.numerator * numerator2) unit.denominator

end Rational

/-! ### Strings

JS strings are modelled as `List Char`.  `natDigitsFuel` is a fuel-driven
(hence kernel-reducible) base-10 digit extractor; `natDigitsFuel n n` is
proved equal to `Nat.digits 10 n` below. -/

/-- Little-endian base-10 digits of `n`, with explicit fuel. -/
def natDigitsFuel : Nat → Nat → List Nat
  | 0, _ => []
  | fuel + 1, n => if n = 0 then [] else n % 10 :: natDigitsFuel fuel (n / 10)

/-- The decimal digit characters of `n`, most significant first — the JS
`BigInt.prototype.toString` of a non-negative value. -/
def natToChars (n : Nat) : List Char :=
  if n = 0 then ['0']
  else ((natDigitsFuel n n).map Nat.digitChar).reverse

/-- JS `${bigint}`: a leading `-` for negative values, then decimal digits. -/
def intToChars (z : Int) : List Char :=
  if z < 0 then '-' :: natToChars z.natAbs else natToChars z.natAbs

/-- JS `String.prototype.split` with a single-character separator. -/
def splitOnChar (c : Char) : List Char → List (List Char)
  | [] => [[]]
  | x :: xs =>
    if x = c then [] :: splitOnChar c xs
    else
      match splitOnChar c xs with
      | [] => [[x]]
      | p :: ps => (x :: p) :: ps

/-- Whether `c` is one of the ten decimal digit characters. -/
def isDigit (c : Char) : Bool := '0' ≤ c && c ≤ '9'

/-- The numeric value of a decimal digit character. -/
def digitVal (c : Char) : Nat := c.toNat - 48

/-- Decimal-numeral parsing of a character list, most significant digit
first; any non-digit character is rejected. -/
def parseNatAux : Nat → List Char → Except RationalError Nat
  | acc, [] => .ok acc
  | acc, ch :: rest =>
    if isDigit ch then parseNatAux (acc * 10 + digitVal ch) rest
    else .error .malformedInput

/-- JS `BigInt(string)` on the decimal-integer grammar the round-trip format
uses: an optional leading `-`, then decimal digits (`BigInt("")` is `0n`;
`BigInt("-")` throws). -/
def parseBigInt : List Char → Except RationalError Int
  | [] => .ok 0
  | c :: rest =>
    if c = '-' then
      if rest.isEmpty then .error .malformedInput
      else do
        let n ← parseNatAux 0 rest
        pure (-(n : Int))
    else do
      let n ← parseNatAux 0 (c :: rest)
      pure ((n : Int))

/-- The value of a digit list read most significant digit first. -/
def charsToNat (s : List Char) : Nat :=
  s.foldl (fun a c => a * 10 + digitVal c) 0

/-- Modelled from the spec: the external decimal parser — optional sign,
digits, optional fractional part, optional `e`/`E` exponent (with optional
sign); at least one digit must be present and no characters may remain. -/
def Decimal.fromString (s : List Char) : Except RationalError Decimal :=
  let (neg, s1) :=
    match s with
    | '-' :: r => (true, r)
    | '+' :: r => (false, r)
    | _ => (false, s)
  let intPart := s1.takeWhile isDigit
  let s2 := s1.dropWhile isDigit
  let (fracPart, s3) :=
    match s2 with
    | '.' :: r => (r.takeWhile isDigit, r.dropWhile isDigit)
    | _ => ([], s2)
  if intPart.isEmpty && fracPart.isEmpty then .error .malformedInput
  else
    let expTail : Option (Bool × List Char) :=
      match s3 with
      | 'e' :: '-' :: r => some (true, r)
      | 'e' :: '+' :: r => some (false, r)
      | 'e' :: r => some (false, r)
      | 'E' :: '-' :: r => some (true, r)
      | 'E' :: '+' :: r => some (false, r)
      | 'E' :: r => some (false, r)
      | _ => none
    let checked : Except RationalError Int :=
      match expTail with
      | none => if s3.isEmpty then .ok 0 else .error .malformedInput
      | some (expNeg, r) =>
        let expDigits := r.takeWhile isDigit
        let r2 := r.dropWhile isDigit
        if expDigits.isEmpty || !r2.isEmpty then .error .malformedInput
        else .ok (if expNeg then -(charsToNat expDigits : Int) else (charsToNat expDigits : Int))
    match checked with
    | .error err => .error err
    | .ok expVal =>
      let mant : Nat := charsToNat (intPart ++ fracPart)
      .ok ⟨if neg then -(mant : Int) else (mant : Int), expVal - (fracPart.length : Int)⟩

namespace Rational

/-- `get json()`: always `"<numerator>/<denominator>"`, the denominator
included even when it is `1`. -/
def json (a : Rational) : List Char :=
  intToChars a.numerator ++ '/' :: intToChars a.denominator

/-- `fromJson`: split on `/`, parse both parts directly as integers (JS
`BigInt(parts[0])`, `BigInt(parts[1])`; a missing second part makes
`BigInt(undefined)` throw), then `create`.  (Cache consultation omitted: the
cache is never populated.) -/
def fromJson (s : List Char) : Except RationalError Rational :=
  match splitOnChar '/' s with
  | n :: d :: _ => do
    create (← parseBigInt n) (← parseBigInt d)
  | _ => .error .malformedInput

/-- `fromString`: split on `/`; the left part goes through the decimal parser
and `fromDecimal`; when a right part is present and non-empty (JS truthiness:
`undefined` and `""` are both falsy and skipped) the result is divided by the
right part parsed the same way.  (Cache consultation omitted: the cache is
never populated.) -/
def fromString (s : List Char) : Except RationalError Rational :=
  match splitOnChar '/' s with
  | [] => .error .malformedInput
  | nStr :: rest => do
    let r ← fromDecimal (← Decimal.fromString nStr)
    match rest with
    | [] => pure r
    | dStr :: _ =>
      if dStr.isEmpty then pure r
      else do
        div r (← fromDecimal (← Decimal.fromString dStr))

/-- The `denominatorLength` local of `roundToSignificants`:
`this.denominator.toString().length`. -/
def rtsDenominatorLength (a : Rational) : Nat :=
  (intToChars a.denominator).length

/-- The `extension` local of `roundToSignificants`:
`significantsLength + denominatorLength`. -/
def rtsExtension (a : Rational) (significantsLength : Nat) : Nat :=
  significantsLength + rtsDenominatorLength a

/-- The `div` local of `roundToSignificants`: the rounding division of the
extended numerator `e(numerator, extension)` by the denominator. -/
def rtsDiv (a : Rational) (significantsLength : Nat) (m : RoundMethod) : Int :=
  bigint.divide (bigint.e a.numerator ((rtsExtension a significantsLength : Nat) : Int) .toZero)
    a.denominator m

/-- The `divLength` local of `roundToSignificants`:
`div.toString().length - Number(div < 0)`. -/
def rtsDivLength (a : Rational) (significantsLength : Nat) (m : RoundMethod) : Nat :=
  (intToChars (rtsDiv a significantsLength m)).length
    - (if rtsDiv a significantsLength m < 0 then 1 else 0)

/-- The `digitsSurplus` local of `roundToSignificants`:
`divLength - significantsLength`. -/
def rtsDigitsSurplus (a : Rational) (significantsLength : Nat) (m : RoundMethod) : Int :=
  (rtsDivLength a significantsLength m : Int) - (significantsLength : Int)

/-- `roundToSignificants(significantsLength, method)`: `Decimal.ZERO` for the
`ZERO` singleton (`this === Rational.ZERO`, structural on reachable values);
otherwise extend the numerator by `significantsLength` plus the decimal
length of the denominator, divide under `method`, measure the quotient's
digit length, trim the surplus digits with a further rounding pass
(`e(div, -digitsSurplus, method)`), and derive the exponent
`digitsSurplus - extension`.  The source's intermediate `const`s are the
`rts*` definitions above. -/
def roundToSignificants (a : Rational) (significantsLength : Nat) (m : RoundMethod) : Decimal :=
  if a = ZERO then Decimal.ZERO
  else
    Decimal.fromBigInt
      (bigint.e (rtsDiv a significantsLength m) (-(rtsDigitsSurplus a significantsLength m)) m)
      (rtsDigitsSurplus a significantsLength m - (rtsExtension a significantsLength : Int))

end Rational

/-! ### The interning cache

Modelled as explicit state: `cache` and `cacheHits` are insertion-ordered
maps (JS `Map` semantics).  Keys are the union type
`string | number | Decimal` of the source. -/

/-- A cache key: a numeral string, a numeric literal, or a decimal. -/
inductive CacheKey where
  | str (s : List Char)
  | num (n : Int)
  | dec (d : Decimal)
deriving DecidableEq

/-- The mutable static state of the `Rational` class: the interning `cache`
and the `cacheHits` recency map. -/
structure CacheState where
  cache : List (CacheKey × Rational)
  cacheHits : List (CacheKey × Rational)
deriving DecidableEq

/-- The state at process start: both maps empty. -/
def CacheState.initial : CacheState := ⟨[], []⟩

/-- JS `Map.prototype.get`. -/
def mapGet (m : List (CacheKey × Rational)) (k : CacheKey) : Option Rational :=
  match m with
  | [] => none
  | (k2, v) :: rest => if k2 = k then some v else mapGet rest k

/-- JS `Map.prototype.set`: overwrite in place when the key exists, append
otherwise. -/
def mapSet (m : List (CacheKey × Rational)) (k : CacheKey) (v : Rational) :
    List (CacheKey × Rational) :=
  match m with
  | [] => [(k, v)]
  | (k2, v2) :: rest => if k2 = k then (k2, v) :: rest else (k2, v2) :: mapSet rest k v

namespace Rational

/-- `Rational.addToCache`: the source's first statement is an unconditional
bare `return`, so the eviction pass and the `cache.set` below it are
unreachable and the state is returned unchanged. -/
def addToCache (st : CacheState) (_rational : Rational) (_key : CacheKey) : CacheState :=
  st

/-- `Rational.getFromCache`: on a hit, record the key in `cacheHits` and
return the cached value; on a miss return `null`. -/
def getFromCache (st : CacheState) (key : CacheKey) : Option Rational × CacheState :=
  match mapGet st.cache key with
  | some r => (some r, { st with cacheHits := mapSet st.cacheHits key r })
  | none => (none, st)

end Rational

/-! ### Canonical form -/

/-- The canonical-form invariant of the spec: positive denominator and
coprime numerator/denominator. -/
def Canonical (a : Rational) : Prop :=
  1 ≤ a.denominator ∧ Int.gcd a.numerator a.denominator = 1

instance (a : Rational) : Decidable (Canonical a) :=
  inferInstanceAs (Decidable (_ ∧ _))

/-- The exact value denoted by a `Rational`, as a Mathlib rational. -/
def valQ (a : Rational) : ℚ :=
  (a.numerator : ℚ) / (a.denominator : ℚ)

theorem create_ok_canonical {n d : Int} {r : Rational}
    (h : Rational.create n d = .ok r) : Canonical r := by
  unfold Rational.create at h
  by_cases hn : n = 0
  · simp only [hn, ne_eq, not_true_eq_false, if_false, Except.ok.injEq] at h
    subst h
    decide
  · rw [if_pos hn] at h
    by_cases hd : d ≤ 0
    · rw [if_pos hd] at h
      exact absurd h (by simp)
    · rw [if_neg hd] at h
      simp only [Except.ok.injEq] at h
      subst h
      push_neg at hd
      set N := n.natAbs with hN
      set Dn := d.natAbs with hDn
      have hNpos : 0 < N := Int.natAbs_pos.mpr hn
      have hDpos : 0 < Dn := Int.natAbs_pos.mpr (by omega)
      have hG : Int.gcd n d = Nat.gcd N Dn := rfl
      have hGpos : 0 < Nat.gcd N Dn := Nat.gcd_pos_of_pos_left _ hNpos
      have hsignG : Int.sign ((Nat.gcd N Dn : Nat) : Int) = 1 :=
        Int.sign_eq_one_of_pos (by exact_mod_cast hGpos)
      have hsignd : Int.sign d = 1 := Int.sign_eq_one_of_pos hd
      have habsG : (((Nat.gcd N Dn : Nat) : Int)).natAbs = Nat.gcd N Dn := rfl
      constructor
      · show 1 ≤ bigint.divide d (bigint.gcd n d) .toZero
        simp only [bigint.divide, bigint.gcd, hG, habsG, hsignd, hsignG, one_mul]
        have : 0 < Dn / Nat.gcd N Dn :=
          Nat.div_pos (Nat.le_of_dvd hDpos (Nat.gcd_dvd_right N Dn)) hGpos
        exact_mod_cast this
      · show Int.gcd (bigint.divide n (bigint.gcd n d) .toZero)
          (bigint.divide d (bigint.gcd n d) .toZero) = 1
        simp only [bigint.divide, bigint.gcd, hG, habsG, hsignd, hsignG, one_mul, mul_one]
        have h1 : (Int.sign n * ((N / Nat.gcd N Dn : Nat) : Int)).natAbs
            = N / Nat.gcd N Dn := by
          rw [Int.natAbs_mul, Int.natAbs_sign_of_nonzero hn, one_mul]
          rfl
        have h2 : (((Dn / Nat.gcd N Dn : Nat) : Int)).natAbs = Dn / Nat.gcd N Dn := rfl
        show Nat.gcd _ _ = 1
        rw [h1, h2]
        exact Nat.coprime_div_gcd_div_gcd hGpos

/-- Truncating division by `1` is the identity. -/
theorem bigint.divide_one (z : Int) : bigint.divide z 1 .toZero = z := by
  simp only [bigint.divide, Int.natAbs_one, Nat.div_one, Int.sign_one, mul_one, one_mul]
  exact Int.sign_mul_natAbs z

theorem create_eq_of_canonical {x : Rational} (h : Canonical x) :
    Rational.create x.numerator x.denominator = .ok x := by
  obtain ⟨hden, hgcd⟩ := h
  unfold Rational.create
  by_cases hn : x.numerator = 0
  · have hd1 : x.denominator = 1 := by
      have : Int.gcd 0 x.denominator = x.denominator.natAbs := by
        simp [Int.gcd]
      rw [hn] at hgcd
      rw [this] at hgcd
      omega
    simp only [hn, ne_eq, not_true_eq_false, if_false]
    have : x = Rational.ZERO := by
      cases x
      simp_all [Rational.ZERO]
    rw [this]
  · rw [if_pos hn, if_neg (by omega)]
    have hgc : bigint.gcd x.numerator x.denominator = 1 := by
      simp only [bigint.gcd, hgcd]
      rfl
    rw [hgc]
    simp only [bigint.divide_one]

theorem canonical_num_zero {r : Rational} (h : Canonical r)
    (hz : r.numerator = 0) : r = Rational.ZERO := by
  obtain ⟨hden, hgcd⟩ := h
  have : Int.gcd 0 r.denominator = r.denominator.natAbs := by simp [Int.gcd]
  rw [hz] at hgcd
  rw [this] at hgcd
  cases r
  simp_all [Rational.ZERO]
  omega

theorem canonical_one {r : Rational} (h : Canonical r)
    (h1 : r.numerator = r.denominator) : r = Rational.ONE := by
  obtain ⟨hden, hgcd⟩ := h
  rw [h1] at hgcd
  have : Int.gcd r.denominator r.denominator = r.denominator.natAbs := by
    simp [Int.gcd, Nat.gcd_self]
  rw [this] at hgcd
  cases r
  simp_all [Rational.ONE]
  omega

/-- Inversion of a successful `Except` bind. -/
theorem exceptBind_ok {ε α β : Type} {x : Except ε α} {f : α → Except ε β} {r : β}
    (h : (x >>= f) = .ok r) : ∃ a, x = .ok a ∧ f a = .ok r := by
  cases x with
  | error er => exact Except.noConfusion h
  | ok a => exact ⟨a, rfl, h⟩

theorem add_ok_canonical {a b : Rational} {r : Rational}
    (h : Rational.add a b = .ok r) : Canonical r := by
  unfold Rational.add at h
  exact create_ok_canonical h

theorem negated_ok_canonical {a : Rational} {r : Rational}
    (h : Rational.negated a = .ok r) : Canonical r := by
  unfold Rational.negated at h
  exact create_ok_canonical h

theorem sub_ok_canonical {a b : Rational} {r : Rational}
    (h : Rational.sub a b = .ok r) : Canonical r := by
  unfold Rational.sub at h
  obtain ⟨nb, _, h2⟩ := exceptBind_ok h
  exact add_ok_canonical h2

theorem mul_ok_canonical {a b : Rational} {r : Rational}
    (h : Rational.mul a b = .ok r) : Canonical r := by
  unfold Rational.mul at h
  exact create_ok_canonical h

theorem inverted_ok_canonical {a : Rational} {r : Rational}
    (h : Rational.inverted a = .ok r) : Canonical r := by
  unfold Rational.inverted at h
  by_cases hz : a = Rational.ZERO
  · rw [if_pos hz] at h
    exact Except.noConfusion h
  · rw [if_neg hz] at h
    exact create_ok_canonical h

theorem div_ok_canonical {a b : Rational} {r : Rational}
    (h : Rational.div a b = .ok r) : Canonical r := by
  unfold Rational.div at h
  obtain ⟨ib, _, h2⟩ := exceptBind_ok h
  exact mul_ok_canonical h2

theorem absR_ok_canonical {a : Rational} {r : Rational} (ha : Canonical a)
    (h : Rational.absR a = .ok r) : Canonical r := by
  unfold Rational.absR at h
  by_cases hneg : a.negative
  · rw [if_pos hneg] at h
    exact negated_ok_canonical h
  · rw [if_neg hneg] at h
    cases h
    exact ha

theorem fromDecimal_ok_canonical {d : Decimal} {r : Rational}
    (h : Rational.fromDecimal d = .ok r) : Canonical r := by
  unfold Rational.fromDecimal at h
  exact create_ok_canonical h

theorem fromNumber_ok_canonical {n : Int} {r : Rational}
    (h : Rational.fromNumber n = .ok r) : Canonical r := by
  unfold Rational.fromNumber at h
  exact fromDecimal_ok_canonical h

theorem fromJson_ok_canonical {s : List Char} {r : Rational}
    (h : Rational.fromJson s = .ok r) : Canonical r := by
  unfold Rational.fromJson at h
  split at h
  · obtain ⟨zn, _, h2⟩ := exceptBind_ok h
    obtain ⟨zd, _, h3⟩ := exceptBind_ok h2
    exact create_ok_canonical h3
  · exact Except.noConfusion h

theorem fromString_ok_canonical {s : List Char} {r : Rational}
    (h : Rational.fromString s = .ok r) : Canonical r := by
  unfold Rational.fromString at h
  split at h
  · exact Except.noConfusion h
  · obtain ⟨d0, _, h2⟩ := exceptBind_ok h
    obtain ⟨r0, hr0, h3⟩ := exceptBind_ok h2
    split at h3
    · cases h3
      exact fromDecimal_ok_canonical hr0
    · split at h3
      · cases h3
        exact fromDecimal_ok_canonical hr0
      · obtain ⟨d1, _, h4⟩ := exceptBind_ok h3
        obtain ⟨r1, _, h5⟩ := exceptBind_ok h4
        exact div_ok_canonical h5

theorem sum_foldlM_canonical {r : Rational} :
    ∀ (l : List Rational) (seed : Rational), Canonical seed →
      l.foldlM Rational.add seed = .ok r → Canonical r := by
  intro l
  induction l with
  | nil =>
    intro seed hs h
    cases h
    exact hs
  | cons x xs ih =>
    intro seed hs h
    have h2 : (Rational.add seed x >>= fun s2 => xs.foldlM Rational.add s2) = .ok r := h
    obtain ⟨s2, hs2, h3⟩ := exceptBind_ok h2
    exact ih s2 (add_ok_canonical hs2) h3

theorem sum_ok_canonical {l : List Rational} {r : Rational}
    (h : Rational.sum l = .ok r) : Canonical r :=
  sum_foldlM_canonical l Rational.ZERO (by decide) h

theorem avg_ok_canonical {l : List Rational} {r : Rational}
    (h : Rational.avg l = .ok r) : Canonical r := by
  unfold Rational.avg at h
  obtain ⟨s, _, h2⟩ := exceptBind_ok h
  obtain ⟨c, _, h3⟩ := exceptBind_ok h2
  exact div_ok_canonical h3

/-- `l.getD i d` is an element of `l` or the default. -/
theorem getD_mem_or_default (l : List Rational) (i : Nat) (d : Rational) :
    l.getD i d ∈ l ∨ l.getD i d = d := by
  have hd : l.getD i d = (l.get? i).getD d := by simp [List.getD]
  cases hg : l.get? i with
  | none => right; rw [hd, hg]; rfl
  | some x => left; rw [hd, hg]; exact List.get?_mem hg

/-- `median` with its local `let`s unfolded. -/
theorem median_eq (l : List Rational) :
    Rational.median l =
      (if l.length ≠ 0 then
        if (List.insertionSort (fun a b => Rational.cmp a b ≤ 0) l).length % 2 = 1 then
          .ok ((List.insertionSort (fun a b => Rational.cmp a b ≤ 0) l).getD
            ((List.insertionSort (fun a b => Rational.cmp a b ≤ 0) l).length / 2) Rational.ZERO)
        else
          Rational.avg
            [(List.insertionSort (fun a b => Rational.cmp a b ≤ 0) l).getD
              ((List.insertionSort (fun a b => Rational.cmp a b ≤ 0) l).length / 2 - 1)
              Rational.ZERO,
             (List.insertionSort (fun a b => Rational.cmp a b ≤ 0) l).getD
              ((List.insertionSort (fun a b => Rational.cmp a b ≤ 0) l).length / 2)
              Rational.ZERO]
      else .error .emptyInput) := rfl

theorem median_ok_canonical {l : List Rational} {r : Rational}
    (hl : ∀ x ∈ l, Canonical x) (h : Rational.median l = .ok r) : Canonical r := by
  rw [median_eq] at h
  by_cases hlen : l.length ≠ 0
  · rw [if_pos hlen] at h
    have hsorted : ∀ x ∈ List.insertionSort (fun a b => Rational.cmp a b ≤ 0) l,
        Canonical x := by
      intro x hx
      exact hl x (((List.perm_insertionSort _ l).mem_iff).mp hx)
    split at h
    · cases h
      rcases getD_mem_or_default _ _ _ with hm | hz
      · exact hsorted _ hm
      · rw [hz]; decide
    · exact avg_ok_canonical h
  · rw [if_neg hlen] at h
    exact Except.noConfusion h

/-- A fold whose step always returns one of its two arguments stays inside
the seed-plus-list collection. -/
theorem foldl_choice_mem (f : Rational → Rational → Rational)
    (hf : ∀ a b, f a b = a ∨ f a b = b) :
    ∀ (xs : List Rational) (x : Rational), xs.foldl f x ∈ x :: xs := by
  intro xs
  induction xs with
  | nil => intro x; exact List.mem_singleton.mpr rfl
  | cons y ys ih =>
    intro x
    have step : ys.foldl f (f x y) ∈ f x y :: ys := ih (f x y)
    have hchoice := hf x y
    show ys.foldl f (f x y) ∈ x :: y :: ys
    rcases List.mem_cons.mp step with heq | hmem
    · rcases hchoice with h1 | h1
      · rw [heq, h1]; exact List.mem_cons_self _ _
      · rw [heq, h1]; exact List.mem_cons_of_mem _ (List.mem_cons_self _ _)
    · exact List.mem_cons_of_mem _ (List.mem_cons_of_mem _ hmem)

theorem min_ok_canonical {l : List Rational} {r : Rational}
    (hl : ∀ x ∈ l, Canonical x) (h : Rational.min l = .ok r) : Canonical r := by
  unfold Rational.min at h
  match l, h with
  | x :: xs, h =>
    simp only [Except.ok.injEq] at h
    subst h
    have := foldl_choice_mem (fun acc q => if Rational.lt acc q then acc else q)
      (by intro a b; by_cases hc : Rational.lt a b <;> simp [hc]) xs x
    exact hl _ this

theorem max_ok_canonical {l : List Rational} {r : Rational}
    (hl : ∀ x ∈ l, Canonical x) (h : Rational.max l = .ok r) : Canonical r := by
  unfold Rational.max at h
  match l, h with
  | x :: xs, h =>
    simp only [Except.ok.injEq] at h
    subst h
    have := foldl_choice_mem (fun acc q => if Rational.gt acc q then acc else q)
      (by intro a b; by_cases hc : Rational.gt a b <;> simp [hc]) xs x
    exact hl _ this

theorem roundByRational_ok_canonical {a u : Rational} {m : RoundMethod} {r : Rational}
    (h : Rational.roundByRational a u m = .ok r) : Canonical r := by
  unfold Rational.roundByRational at h
  obtain ⟨q, _, h2⟩ := exceptBind_ok h
  exact create_ok_canonical h2

/-- C1: every `Rational` a public operation returns (construction, parsing,
arithmetic, aggregates, rounding) satisfies the canonical-form invariant —
`gcd(|numerator|, denominator) = 1` and `denominator ≥ 1` — and under that
invariant the value `0` is represented uniquely by the `ZERO` singleton's
pair `(0, 1)` and the value `1` uniquely by the `ONE` singleton's pair
`(1, 1)`.  (Since the interning cache is never populated, the singletons are
read structurally: `create` returns the `ZERO` constant itself for every
zero result, and every canonical pair denoting `1` equals `ONE`'s pair.) -/
theorem c1_canonical_form :
    (∀ n d r, Rational.create n d = .ok r → Canonical r)
    ∧ (∀ a b r, Rational.add a b = .ok r → Canonical r)
    ∧ (∀ a b r, Rational.sub a b = .ok r → Canonical r)
    ∧ (∀ a b r, Rational.mul a b = .ok r → Canonical r)
    ∧ (∀ a b r, Rational.div a b = .ok r → Canonical r)
    ∧ (∀ a r, Rational.negated a = .ok r → Canonical r)
    ∧ (∀ a r, Rational.inverted a = .ok r → Canonical r)
    ∧ (∀ a r, Canonical a → Rational.absR a = .ok r → Canonical r)
    ∧ (∀ d r, Rational.fromDecimal d = .ok r → Canonical r)
    ∧ (∀ n r, Rational.fromNumber n = .ok r → Canonical r)
    ∧ (∀ s r, Rational.fromJson s = .ok r → Canonical r)
    ∧ (∀ s r, Rational.fromString s = .ok r → Canonical r)
    ∧ (∀ l r, Rational.sum l = .ok r → Canonical r)
    ∧ (∀ l r, Rational.avg l = .ok r → Canonical r)
    ∧ (∀ l r, (∀ x ∈ l, Canonical x) → Rational.median l = .ok r → Canonical r)
    ∧ (∀ l r, (∀ x ∈ l, Canonical x) → Rational.min l = .ok r → Canonical r)
    ∧ (∀ l r, (∀ x ∈ l, Canonical x) → Rational.max l = .ok r → Canonical r)
    ∧ (∀ a u m r, Rational.roundByRational a u m = .ok r → Canonical r)
    ∧ (∀ r, Canonical r → r.numerator = 0 → r = Rational.ZERO)
    ∧ (∀ r, Canonical r → r.numerator = r.denominator → r = Rational.ONE) :=
  ⟨fun _ _ _ h => create_ok_canonical h,
   fun _ _ _ h => add_ok_canonical h,
   fun _ _ _ h => sub_ok_canonical h,
   fun _ _ _ h => mul_ok_canonical h,
   fun _ _ _ h => div_ok_canonical h,
   fun _ _ h => negated_ok_canonical h,
   fun _ _ h => inverted_ok_canonical h,
   fun _ _ ha h => absR_ok_canonical ha h,
   fun _ _ h => fromDecimal_ok_canonical h,
   fun _ _ h => fromNumber_ok_canonical h,
   fun _ _ h => fromJson_ok_canonical h,
   fun _ _ h => fromString_ok_canonical h,
   fun _ _ h => sum_ok_canonical h,
   fun _ _ h => avg_ok_canonical h,
   fun _ _ hl h => median_ok_canonical hl h,
   fun _ _ hl h => min_ok_canonical hl h,
   fun _ _ hl h => max_ok_canonical hl h,
   fun _ _ _ _ h => roundByRational_ok_canonical h,
   fun _ hc hz => canonical_num_zero hc hz,
   fun _ hc h1 => canonical_one hc h1⟩

/-- Witness for C1 at concrete inputs: `create 2 4` yields the canonical
`1/2`; the canonical zero-valued pair is the `ZERO` singleton's and the
canonical pair for `1` is the `ONE` singleton's. -/
theorem c1_canonical_form_witness :
    Canonical ⟨1, 2⟩ ∧ (⟨0, 1⟩ : Rational) = Rational.ZERO
      ∧ (⟨1, 1⟩ : Rational) = Rational.ONE :=
  ⟨c1_canonical_form.1 2 4 ⟨1, 2⟩ (by decide),
   (c1_canonical_form.2.2.2.2.2.2.2.2.2.2.2.2.2.2.2.2.2.2.1) ⟨0, 1⟩ (by decide) (by decide),
   (c1_canonical_form.2.2.2.2.2.2.2.2.2.2.2.2.2.2.2.2.2.2.2) ⟨1, 1⟩ (by decide) (by decide)⟩

/-! ### C3 — the denominator guard -/

/-- C3 counterexample: with numerator `0` the constructor never reaches the
`denominator <= 0` guard — `create(0, 0)` succeeds with the `ZERO` singleton
instead of failing with `InvalidOperand`. -/
theorem c3_counterexample :
    Rational.create 0 0 = .ok Rational.ZERO
      ∧ Rational.create 0 0 ≠ .error RationalError.invalidOperand := by
  decide

/-- C3 (amended): for every nonzero numerator and every denominator `≤ 0`
(in particular `0`), `create` fails with `InvalidOperand`; for numerator `0`
it returns the `ZERO` singleton for every denominator, the guard never being
reached. -/
theorem c3_denominator_guard (n d : Int) :
    (n ≠ 0 → d ≤ 0 → Rational.create n d = .error RationalError.invalidOperand)
      ∧ Rational.create 0 d = .ok Rational.ZERO := by
  constructor
  · intro hn hd
    unfold Rational.create
    rw [if_pos hn, if_pos hd]
  · unfold Rational.create
    simp

/-- Witness for C3 at concrete inputs. -/
theorem c3_denominator_guard_witness :
    Rational.create 1 0 = .error RationalError.invalidOperand
      ∧ Rational.create 0 (-5) = .ok Rational.ZERO :=
  ⟨(c3_denominator_guard 1 0).1 (by decide) (by decide),
   (c3_denominator_guard 1 (-5)).2⟩

/-! ### C9 — `avg` on an empty argument list -/

/-- C9: `avg()` with no arguments fails with `DivisionByZero`, not
`EmptyInput`: the sum of no arguments is the `ZERO` singleton, the count `0`
also becomes the `ZERO` singleton, and dividing inverts that singleton,
which throws. -/
theorem c9_avg_empty :
    Rational.sum [] = .ok Rational.ZERO
      ∧ Rational.fromNumber 0 = .ok Rational.ZERO
      ∧ Rational.avg [] = .error RationalError.divisionByZero
      ∧ Rational.avg [] ≠ .error RationalError.emptyInput := by
  decide

/-! ### C5 — the interning cache -/

/-- C5 counterexample: inserting `ONE` under a key into the pristine cache and
immediately looking the key up misses — `put` does not make the cache contain
the entry. -/
theorem c5_counterexample :
    (Rational.getFromCache
        (Rational.addToCache CacheState.initial Rational.ONE (CacheKey.num 1))
        (CacheKey.num 1)).1 ≠ some Rational.ONE := by
  decide

/-- C5 (amended): `addToCache` returns immediately (its first statement is a
bare `return`), leaving the state unchanged — the eviction pass and the
insertion below it are unreachable — so the cache stays empty forever and
every lookup on a reachable state misses. -/
theorem c5_addToCache_noop :
    (∀ (st : CacheState) (r : Rational) (k : CacheKey),
        Rational.addToCache st r k = st)
      ∧ (∀ (hits : List (CacheKey × Rational)) (k : CacheKey),
        Rational.getFromCache ⟨[], hits⟩ k = (none, ⟨[], hits⟩)) :=
  ⟨fun _ _ _ => rfl, fun _ _ => rfl⟩

/-! ### C4 — inversion of zero -/

/-- C4: for every canonical operand, inverting the zero value fails with
`DivisionByZero` — directly via `inverted` and via `div(x, b)` with `b`
zero-valued for every `x` — while for every nonzero canonical operand
`inverted` succeeds with numerator `sign(a) * a.den` and denominator
`|a.num|`. -/
theorem c4_inverted_zero (b : Rational) (hb : Canonical b) :
    (b.numerator = 0 →
      Rational.inverted b = .error RationalError.divisionByZero
        ∧ ∀ x : Rational, Rational.div x b = .error RationalError.divisionByZero)
      ∧ (b.numerator ≠ 0 →
        Rational.inverted b =
          .ok ⟨Int.sign b.numerator * b.denominator, (b.numerator.natAbs : Int)⟩) := by
  constructor
  · intro hz
    have hzero : b = Rational.ZERO := canonical_num_zero hb hz
    subst hzero
    exact ⟨rfl, fun _ => rfl⟩
  · intro hn
    have hnz : b ≠ Rational.ZERO := by
      intro heq
      rw [heq] at hn
      exact hn rfl
    unfold Rational.inverted
    rw [if_neg hnz]
    have harg : (if b.negative then -b.denominator else b.denominator)
        = Int.sign b.numerator * b.denominator := by
      unfold Rational.negative
      by_cases hneg : b.numerator < 0
      · rw [Int.sign_eq_neg_one_of_neg hneg]
        simp [hneg]
      · have hpos : 0 < b.numerator := by omega
        rw [Int.sign_eq_one_of_pos hpos]
        simp [hneg]
    have hcanon : Canonical ⟨Int.sign b.numerator * b.denominator,
        (b.numerator.natAbs : Int)⟩ := by
      constructor
      · show 1 ≤ ((b.numerator.natAbs : Nat) : Int)
        have : 0 < b.numerator.natAbs := Int.natAbs_pos.mpr hn
        exact_mod_cast this
      · show Nat.gcd (Int.sign b.numerator * b.denominator).natAbs
          (((b.numerator.natAbs : Nat) : Int)).natAbs = 1
        rw [Int.natAbs_mul, Int.natAbs_sign_of_nonzero hn, one_mul]
        have h2 : (((b.numerator.natAbs : Nat) : Int)).natAbs = b.numerator.natAbs := rfl
        rw [h2, Nat.gcd_comm]
        exact hb.2
    have := create_eq_of_canonical hcanon
    simp only [] at this
    rw [harg]
    show Rational.create (Int.sign b.numerator * b.denominator)
      (bigint.abs b.numerator) = _
    exact this

/-- Witness for C4 at concrete inputs: the `ZERO` singleton, the quotient
`3/4 ÷ 0`, and the inversion of `-2/5`. -/
theorem c4_inverted_zero_witness :
    Rational.inverted Rational.ZERO = .error RationalError.divisionByZero
      ∧ Rational.div ⟨3, 4⟩ Rational.ZERO = .error RationalError.divisionByZero
      ∧ Rational.inverted ⟨-2, 5⟩ = .ok ⟨-5, 2⟩ := by
  refine ⟨((c4_inverted_zero Rational.ZERO (by decide)).1 (by decide)).1,
    ((c4_inverted_zero Rational.ZERO (by decide)).1 (by decide)).2 ⟨3, 4⟩, ?_⟩
  have := (c4_inverted_zero ⟨-2, 5⟩ (by decide)).2 (by decide)
  simpa using this

/-! ### C8 — comparison -/

theorem negative_iff (a : Rational) : a.negative = true ↔ a.numerator < 0 := by
  simp [Rational.negative]

theorem cmp_key_lt {a b : Rational} (ha : 0 < a.denominator) (hb : 0 < b.denominator) :
    valQ a < valQ b ↔ a.numerator * b.denominator < b.numerator * a.denominator := by
  unfold valQ
  rw [div_lt_div_iff₀ (by exact_mod_cast ha) (by exact_mod_cast hb)]
  constructor
  · intro h; exact_mod_cast h
  · intro h; exact_mod_cast h

theorem cmp_key_eq {a b : Rational} (ha : 0 < a.denominator) (hb : 0 < b.denominator) :
    valQ a = valQ b ↔ a.numerator * b.denominator = b.numerator * a.denominator := by
  unfold valQ
  rw [div_eq_div_iff (by exact_mod_cast ha.ne') (by exact_mod_cast hb.ne')]
  constructor
  · intro h; exact_mod_cast h
  · intro h; exact_mod_cast h

/-- The ordering specification of `cmp` and `eq`, as a shared helper. -/
theorem cmp_order_spec (a b : Rational) (ha : 0 < a.denominator) (hb : 0 < b.denominator) :
    (Rational.cmp a b = -1 ↔ valQ a < valQ b)
      ∧ (Rational.cmp a b = 0 ↔ valQ a = valQ b)
      ∧ (Rational.cmp a b = 1 ↔ valQ b < valQ a)
      ∧ (Rational.eq a b = true ↔ valQ a = valQ b) := by
  have key_lt := cmp_key_lt ha hb
  have key_lt2 := cmp_key_lt hb ha
  have key_eq := cmp_key_eq ha hb
  have main : (Rational.cmp a b = -1 ↔ valQ a < valQ b)
      ∧ (Rational.cmp a b = 0 ↔ valQ a = valQ b)
      ∧ (Rational.cmp a b = 1 ↔ valQ b < valQ a) := by
    unfold Rational.cmp
    by_cases hf : a.negative = b.negative
    · rw [if_pos hf]
      rcases lt_trichotomy (a.numerator * b.denominator) (b.numerator * a.denominator)
        with hlt | heq | hgt
      · rw [if_pos hlt]
        have hv : valQ a < valQ b := key_lt.mpr hlt
        exact ⟨⟨fun _ => hv, fun _ => rfl⟩,
          ⟨fun h => absurd h (by decide), fun h => absurd h (ne_of_lt hv)⟩,
          ⟨fun h => absurd h (by decide), fun h => absurd h (not_lt.mpr (le_of_lt hv))⟩⟩
      · rw [if_neg (by omega), if_neg (by omega)]
        have hv : valQ a = valQ b := key_eq.mpr heq
        exact ⟨⟨fun h => absurd h (by decide), fun h => absurd hv (ne_of_lt h)⟩,
          ⟨fun _ => hv, fun _ => rfl⟩,
          ⟨fun h => absurd h (by decide), fun h => absurd hv.symm (ne_of_lt h)⟩⟩
      · rw [if_neg (by omega), if_pos (by omega)]
        have hv : valQ b < valQ a := key_lt2.mpr hgt
        exact ⟨⟨fun h => absurd h (by decide), fun h => absurd h (not_lt.mpr (le_of_lt hv))⟩,
          ⟨fun h => absurd h (by decide), fun h => absurd h (ne_of_lt hv).symm⟩,
          ⟨fun _ => hv, fun _ => rfl⟩⟩
    · rw [if_neg hf]
      cases hca : a.negative with
      | true =>
        have hcb : b.negative = false := by
          cases hcb2 : b.negative
          · rfl
          · rw [hca, hcb2] at hf
            exact absurd rfl hf
        have han : a.numerator < 0 := (negative_iff a).mp hca
        have hbnn : 0 ≤ b.numerator := by
          by_contra hc
          push_neg at hc
          rw [(negative_iff b).mpr hc] at hcb
          exact Bool.noConfusion hcb
        have hv : valQ a < valQ b := by
          have h1 : valQ a < 0 := by
            unfold valQ
            exact div_neg_of_neg_of_pos (by exact_mod_cast han) (by exact_mod_cast ha)
          have h2 : 0 ≤ valQ b := by
            unfold valQ
            exact div_nonneg (by exact_mod_cast hbnn) (by positivity)
          linarith
        rw [if_pos rfl]
        exact ⟨⟨fun _ => hv, fun _ => rfl⟩,
          ⟨fun h => absurd h (by decide), fun h => absurd h (ne_of_lt hv)⟩,
          ⟨fun h => absurd h (by decide), fun h => absurd h (not_lt.mpr (le_of_lt hv))⟩⟩
      | false =>
        have hcb : b.negative = true := by
          cases hcb2 : b.negative
          · rw [hca, hcb2] at hf
            exact absurd rfl hf
          · rfl
        have hbneg : b.numerator < 0 := (negative_iff b).mp hcb
        have hann : 0 ≤ a.numerator := by
          by_contra hc
          push_neg at hc
          rw [(negative_iff a).mpr hc] at hca
          exact Bool.noConfusion hca
        have hv : valQ b < valQ a := by
          have h1 : valQ b < 0 := by
            unfold valQ
            exact div_neg_of_neg_of_pos (by exact_mod_cast hbneg) (by exact_mod_cast hb)
          have h2 : 0 ≤ valQ a := by
            unfold valQ
            exact div_nonneg (by exact_mod_cast hann) (by positivity)
          linarith
        rw [if_neg Bool.false_ne_true]
        exact ⟨⟨fun h => absurd h (by decide), fun h => absurd h (not_lt.mpr (le_of_lt hv))⟩,
          ⟨fun h => absurd h (by decide), fun h => absurd h (ne_of_lt hv).symm⟩,
          ⟨fun _ => hv, fun _ => rfl⟩⟩
  refine ⟨main.1, main.2.1, main.2.2, ?_⟩
  unfold Rational.eq
  rw [show (Rational.cmp a b == 0) = decide (Rational.cmp a b = 0) from rfl]
  rw [decide_eq_true_eq]
  exact main.2.1

/-- C8: on operands with positive denominators (every canonical value),
`cmp(a, b)` returns `-1`, `0` or `1` according as the exact value
`a.num/a.den` is less than, equal to, or greater than `b.num/b.den`, and
`eq(a, b)` holds exactly when the two denote the same rational value —
regardless of construction path. -/
theorem c8_cmp_order (a b : Rational) (ha : 0 < a.denominator) (hb : 0 < b.denominator) :
    (Rational.cmp a b = -1 ↔ valQ a < valQ b)
      ∧ (Rational.cmp a b = 0 ↔ valQ a = valQ b)
      ∧ (Rational.cmp a b = 1 ↔ valQ b < valQ a)
      ∧ (Rational.eq a b = true ↔ valQ a = valQ b) :=
  cmp_order_spec a b ha hb

/-- Witness for C8 at concrete inputs: `1/2` and `2/4` denote the same value
and compare equal although constructed from different pairs. -/
theorem c8_cmp_order_witness :
    (Rational.eq ⟨1, 2⟩ ⟨2, 4⟩ = true ↔ valQ ⟨1, 2⟩ = valQ ⟨2, 4⟩)
      ∧ (Rational.cmp ⟨1, 2⟩ ⟨2, 4⟩ = 0 ↔ valQ ⟨1, 2⟩ = valQ ⟨2, 4⟩) :=
  ⟨(c8_cmp_order ⟨1, 2⟩ ⟨2, 4⟩ (by decide) (by decide)).2.2.2,
   (c8_cmp_order ⟨1, 2⟩ ⟨2, 4⟩ (by decide) (by decide)).2.1⟩

/-! ### C10 — `fromString` with an empty denominator part -/

theorem splitOnChar_not_mem {c : Char} {s : List Char} (h : c ∉ s) :
    splitOnChar c s = [s] := by
  induction s with
  | nil => simp only [splitOnChar]
  | cons x xs ih =>
    have hx : x ≠ c := fun he => h (he ▸ List.mem_cons_self x xs)
    have hxs : c ∉ xs := fun hm => h (List.mem_cons_of_mem x hm)
    simp only [splitOnChar]
    rw [if_neg hx, ih hxs]

theorem splitOnChar_append {c : Char} {t : List Char} :
    ∀ {s : List Char}, c ∉ s → splitOnChar c (s ++ c :: t) = s :: splitOnChar c t := by
  intro s
  induction s with
  | nil =>
    intro _
    show splitOnChar c (c :: t) = [] :: splitOnChar c t
    simp only [splitOnChar]
    rw [if_pos trivial]
  | cons x xs ih =>
    intro h
    have hx : x ≠ c := fun he => h (he ▸ List.mem_cons_self x xs)
    have hxs : c ∉ xs := fun hm => h (List.mem_cons_of_mem x hm)
    show splitOnChar c (x :: (xs ++ c :: t)) = (x :: xs) :: splitOnChar c t
    simp only [splitOnChar]
    rw [if_neg hx, ih hxs]

/-- `fromDecimal` never fails: its denominator argument is a positive power
of ten. -/
theorem fromDecimal_ok (d : Decimal) : ∃ r, Rational.fromDecimal d = .ok r := by
  unfold Rational.fromDecimal Rational.create
  have hpow : 0 < (10 : Int) ^ (((if d.exponent < 0 then -d.exponent else 0) : Int)).toNat :=
    pow_pos (by norm_num) _
  have hden : ¬ (bigint.e 1 (if d.exponent < 0 then -d.exponent else 0) .toZero ≤ 0) := by
    unfold bigint.e
    rw [if_pos (by split <;> omega)]
    omega
  by_cases hn : (bigint.e d.significand (if d.exponent > 0 then d.exponent else 0) .toZero) ≠ 0
  · rw [if_pos hn, if_neg hden]
    exact ⟨_, rfl⟩
  · rw [if_neg hn]
    exact ⟨_, rfl⟩

/-- C10: a trailing `/` with an empty right-hand part is ignored —
`fromString("<decimal>/")` equals `fromString("<decimal>")`, and when the
left part parses, the rational it denotes is returned rather than a
`MalformedInput` failure. -/
theorem c10_fromString_trailing_slash (s : List Char) (h : '/' ∉ s) :
    Rational.fromString (s ++ ['/']) = Rational.fromString s
      ∧ ∀ d, Decimal.fromString s = .ok d →
          ∃ r, Rational.fromString (s ++ ['/']) = .ok r
            ∧ Rational.fromDecimal d = .ok r := by
  have h1 : splitOnChar '/' (s ++ ['/']) = [s, []] := by
    have := splitOnChar_append (c := '/') (t := ([] : List Char)) h
    simpa using this
  have h2 : splitOnChar '/' s = [s] := splitOnChar_not_mem h
  constructor
  · unfold Rational.fromString
    rw [h1, h2]
    rfl
  · intro d hd
    obtain ⟨r, hr⟩ := fromDecimal_ok d
    refine ⟨r, ?_, hr⟩
    unfold Rational.fromString
    rw [h1]
    show (Decimal.fromString s >>= fun l =>
      Rational.fromDecimal l >>= fun r2 => pure r2) = Except.ok r
    rw [hd]
    show (Rational.fromDecimal d >>= fun r2 => pure r2) = Except.ok r
    rw [hr]
    rfl

/-- Witness for C10 at the concrete input `"1/"`. -/
theorem c10_fromString_trailing_slash_witness :
    Rational.fromString ['1', '/'] = Rational.fromString ['1']
      ∧ ∃ r, Rational.fromString ['1', '/'] = .ok r
        ∧ Rational.fromDecimal ⟨1, 0⟩ = .ok r :=
  ⟨(c10_fromString_trailing_slash ['1'] (by decide)).1,
   (c10_fromString_trailing_slash ['1'] (by decide)).2 ⟨1, 0⟩ (by decide)⟩

/-! ### C2 — the json round trip -/

theorem natDigitsFuel_eq : ∀ (fuel n : Nat), n ≤ fuel → natDigitsFuel fuel n = Nat.digits 10 n := by
  intro fuel
  induction fuel with
  | zero =>
    intro n hn
    interval_cases n
    simp [natDigitsFuel]
  | succ f ih =>
    intro n hn
    by_cases h0 : n = 0
    · subst h0
      simp [natDigitsFuel]
    · rw [show natDigitsFuel (f + 1) n = n % 10 :: natDigitsFuel f (n / 10) from by
        simp [natDigitsFuel, h0]]
      have hlt : n / 10 < n := Nat.div_lt_self (Nat.pos_of_ne_zero h0) (by norm_num)
      rw [ih (n / 10) (by omega)]
      rw [Nat.digits_def' (by norm_num : (1 : ℕ) < 10) (Nat.pos_of_ne_zero h0)]

theorem digitChar_spec {d : Nat} (hd : d < 10) :
    isDigit (Nat.digitChar d) = true ∧ digitVal (Nat.digitChar d) = d
      ∧ Nat.digitChar d ≠ '/' ∧ Nat.digitChar d ≠ '-' := by
  interval_cases d <;> exact ⟨by decide, by decide, by decide, by decide⟩

theorem parseNatAux_digits : ∀ (m : List Nat), (∀ d ∈ m, d < 10) → ∀ acc : Nat,
    parseNatAux acc (m.map Nat.digitChar)
      = .ok (m.foldl (fun a d => a * 10 + d) acc) := by
  intro m
  induction m with
  | nil => intro _ acc; rfl
  | cons d ds ih =>
    intro hv acc
    have hd : d < 10 := hv d (List.mem_cons_self _ _)
    have hspec := digitChar_spec hd
    show parseNatAux acc (Nat.digitChar d :: ds.map Nat.digitChar) = _
    simp only [parseNatAux]
    rw [if_pos hspec.1, hspec.2.1]
    rw [show (d :: ds).foldl (fun a x => a * 10 + x) acc
      = ds.foldl (fun a x => a * 10 + x) (acc * 10 + d) from rfl]
    exact ih (fun x hx => hv x (List.mem_cons_of_mem _ hx)) (acc * 10 + d)

theorem foldl_reverse_ofDigits : ∀ (l : List Nat) (acc : Nat),
    l.reverse.foldl (fun a d => a * 10 + d) acc
      = acc * 10 ^ l.length + Nat.ofDigits 10 l := by
  intro l
  induction l with
  | nil => intro acc; simp [Nat.ofDigits]
  | cons d ds ih =>
    intro acc
    rw [List.reverse_cons, List.foldl_append, ih acc]
    show (acc * 10 ^ ds.length + Nat.ofDigits 10 ds) * 10 + d
      = acc * 10 ^ (d :: ds).length + Nat.ofDigits 10 (d :: ds)
    rw [Nat.ofDigits_cons, List.length_cons, pow_succ]
    ring

theorem parseNatAux_natToChars (n : Nat) : parseNatAux 0 (natToChars n) = .ok n := by
  by_cases h0 : n = 0
  · subst h0
    decide
  · unfold natToChars
    rw [if_neg h0, natDigitsFuel_eq n n le_rfl]
    rw [show ((Nat.digits 10 n).map Nat.digitChar).reverse
      = ((Nat.digits 10 n).reverse).map Nat.digitChar from (List.map_reverse _ _).symm]
    rw [parseNatAux_digits _ (fun d hd =>
      Nat.digits_lt_base (by norm_num) (List.mem_reverse.mp hd))]
    rw [foldl_reverse_ofDigits]
    simp [Nat.ofDigits_digits]

theorem natToChars_digit {n : Nat} {c : Char} (hc : c ∈ natToChars n) :
    isDigit c = true := by
  unfold natToChars at hc
  by_cases h0 : n = 0
  · rw [if_pos h0] at hc
    rcases List.mem_singleton.mp hc with rfl
    decide
  · rw [if_neg h0] at hc
    obtain ⟨d, hd, rfl⟩ := List.mem_map.mp (List.mem_reverse.mp hc)
    exact (digitChar_spec (Nat.digits_lt_base (by norm_num) (natDigitsFuel_eq n n le_rfl ▸ hd))).1

theorem natToChars_ne_nil (n : Nat) : natToChars n ≠ [] := by
  unfold natToChars
  by_cases h0 : n = 0
  · rw [if_pos h0]
    exact List.cons_ne_nil _ _
  · rw [if_neg h0]
    simp only [ne_eq, List.reverse_eq_nil_iff, List.map_eq_nil_iff]
    rw [natDigitsFuel_eq n n le_rfl]
    exact Nat.digits_ne_nil_iff_ne_zero.mpr h0

theorem slash_not_mem_intToChars (z : Int) : '/' ∉ intToChars z := by
  unfold intToChars
  have hdig : '/' ∉ natToChars z.natAbs := fun hm =>
    absurd (natToChars_digit hm) (by decide)
  by_cases hz : z < 0
  · rw [if_pos hz]
    intro hm
    rcases List.mem_cons.mp hm with he | hm2
    · exact absurd he (by decide)
    · exact hdig hm2
  · rw [if_neg hz]
    exact hdig

theorem parseBigInt_intToChars (z : Int) : parseBigInt (intToChars z) = .ok z := by
  unfold intToChars
  by_cases hz : z < 0
  · rw [if_pos hz]
    show parseBigInt ('-' :: natToChars z.natAbs) = .ok z
    simp only [parseBigInt]
    rw [if_pos trivial]
    have hne : (natToChars z.natAbs).isEmpty = false := by
      cases hnc : natToChars z.natAbs with
      | nil => exact absurd hnc (natToChars_ne_nil _)
      | cons c cs => rfl
    rw [if_neg (by rw [hne]; exact Bool.false_ne_true)]
    rw [parseNatAux_natToChars]
    show Except.ok (-((z.natAbs : Nat) : Int)) = Except.ok z
    have : ((z.natAbs : Nat) : Int) = -z := Int.ofNat_natAbs_of_nonpos (by omega)
    rw [this, neg_neg]
  · rw [if_neg hz]
    cases hnc : natToChars z.natAbs with
    | nil => exact absurd hnc (natToChars_ne_nil _)
    | cons c cs =>
      have hcd : isDigit c = true := natToChars_digit (hnc ▸ List.mem_cons_self c cs)
      have hc : c ≠ '-' := by
        intro he
        rw [he] at hcd
        exact absurd hcd (by decide)
      show parseBigInt (c :: cs) = .ok z
      simp only [parseBigInt]
      rw [if_neg hc, ← hnc, parseNatAux_natToChars]
      show Except.ok ((z.natAbs : Nat) : Int) = Except.ok z
      rw [Int.natAbs_of_nonneg (by omega)]

/-- C2: for every canonical `x`, `fromJson(x.json)` returns `x` itself
(structural equality of the reduced pair), where `json` always emits
`"<numerator>/<denominator>"` — the denominator present even when it is `1` —
and `fromJson` splits on `/` and parses the two parts as integers. -/
theorem c2_json_round_trip (x : Rational) (h : Canonical x) :
    Rational.fromJson (Rational.json x) = .ok x
      ∧ Rational.json x
        = intToChars x.numerator ++ '/' :: intToChars x.denominator := by
  have hsplit : splitOnChar '/' (Rational.json x)
      = [intToChars x.numerator, intToChars x.denominator] := by
    unfold Rational.json
    rw [splitOnChar_append (slash_not_mem_intToChars _)]
    rw [splitOnChar_not_mem (slash_not_mem_intToChars _)]
  refine ⟨?_, rfl⟩
  unfold Rational.fromJson
  rw [hsplit]
  show (parseBigInt (intToChars x.numerator) >>= fun n =>
    parseBigInt (intToChars x.denominator) >>= fun d => Rational.create n d) = .ok x
  rw [parseBigInt_intToChars]
  show (parseBigInt (intToChars x.denominator) >>= fun d =>
    Rational.create x.numerator d) = .ok x
  rw [parseBigInt_intToChars]
  show Rational.create x.numerator x.denominator = .ok x
  exact create_eq_of_canonical h

/-- Witness for C2 at the concrete canonical value `-3/7`, whose json form is
`"-3/7"`. -/
theorem c2_json_round_trip_witness :
    Rational.fromJson (Rational.json ⟨-3, 7⟩) = .ok ⟨-3, 7⟩
      ∧ Rational.json ⟨-3, 7⟩
        = intToChars (-3) ++ '/' :: intToChars 7 :=
  c2_json_round_trip ⟨-3, 7⟩ (by decide)

/-! ### C7 — `median` -/

theorem cmp_cases (a b : Rational) :
    Rational.cmp a b = -1 ∨ Rational.cmp a b = 0 ∨ Rational.cmp a b = 1 := by
  unfold Rational.cmp
  split
  · split
    · exact Or.inl rfl
    · split
      · exact Or.inr (Or.inr rfl)
      · exact Or.inr (Or.inl rfl)
  · split
    · exact Or.inl rfl
    · exact Or.inr (Or.inr rfl)

theorem cmp_le_iff {a b : Rational} (ha : 0 < a.denominator) (hb : 0 < b.denominator) :
    Rational.cmp a b ≤ 0 ↔ valQ a ≤ valQ b := by
  have hs := cmp_order_spec a b ha hb
  constructor
  · intro hle
    rcases cmp_cases a b with h | h | h
    · exact le_of_lt (hs.1.mp h)
    · exact le_of_eq (hs.2.1.mp h)
    · rw [h] at hle
      exact absurd hle (by norm_num)
  · intro hle
    rcases cmp_cases a b with h | h | h
    · rw [h]; norm_num
    · rw [h]
    · exact absurd (hs.2.2.1.mp h) (not_lt.mpr hle)

theorem cmp_total {a b : Rational} (ha : 0 < a.denominator) (hb : 0 < b.denominator) :
    Rational.cmp a b ≤ 0 ∨ Rational.cmp b a ≤ 0 := by
  rcases le_total (valQ a) (valQ b) with h | h
  · exact Or.inl ((cmp_le_iff ha hb).mpr h)
  · exact Or.inr ((cmp_le_iff hb ha).mpr h)

theorem cmp_trans {a b c : Rational} (ha : 0 < a.denominator) (hb : 0 < b.denominator)
    (hc : 0 < c.denominator) (h1 : Rational.cmp a b ≤ 0) (h2 : Rational.cmp b c ≤ 0) :
    Rational.cmp a c ≤ 0 :=
  (cmp_le_iff ha hc).mpr (le_trans ((cmp_le_iff ha hb).mp h1) ((cmp_le_iff hb hc).mp h2))

theorem orderedInsert_sorted {x : Rational} :
    ∀ {l : List Rational}, Canonical x → (∀ y ∈ l, Canonical y) →
      List.Sorted (fun a b => Rational.cmp a b ≤ 0) l →
      List.Sorted (fun a b => Rational.cmp a b ≤ 0)
        (List.orderedInsert (fun a b => Rational.cmp a b ≤ 0) x l) := by
  intro l
  induction l with
  | nil =>
    intro _ _ _
    simp [List.orderedInsert]
  | cons b t ih =>
    intro hx hl hs
    have hb : Canonical b := hl b (List.mem_cons_self _ _)
    have ht : ∀ y ∈ t, Canonical y := fun y hy => hl y (List.mem_cons_of_mem _ hy)
    rw [List.orderedInsert]
    split
    · rename_i hxb
      refine List.sorted_cons.mpr ⟨?_, hs⟩
      intro y hy
      rcases List.mem_cons.mp hy with rfl | hyt
      · exact hxb
      · have hy2 : Canonical y := ht y hyt
        have hby : Rational.cmp b y ≤ 0 := (List.sorted_cons.mp hs).1 y hyt
        exact cmp_trans (lt_of_lt_of_le zero_lt_one hx.1) (lt_of_lt_of_le zero_lt_one hb.1)
          (lt_of_lt_of_le zero_lt_one hy2.1) hxb hby
    · rename_i hxb
      have hbx : Rational.cmp b x ≤ 0 := by
        rcases cmp_total (lt_of_lt_of_le zero_lt_one hx.1)
          (lt_of_lt_of_le zero_lt_one hb.1) with h | h
        · exact absurd h hxb
        · exact h
      refine List.sorted_cons.mpr ⟨?_, ih hx ht (List.sorted_cons.mp hs).2⟩
      intro y hy
      rcases (List.mem_orderedInsert _).mp hy with rfl | hyt
      · exact hbx
      · exact (List.sorted_cons.mp hs).1 y hyt

theorem insertionSort_sorted :
    ∀ (l : List Rational), (∀ y ∈ l, Canonical y) →
      List.Sorted (fun a b => Rational.cmp a b ≤ 0)
        (List.insertionSort (fun a b => Rational.cmp a b ≤ 0) l) := by
  intro l
  induction l with
  | nil => intro _; simp
  | cons a t ih =>
    intro hl
    rw [List.insertionSort]
    have ha : Canonical a := hl a (List.mem_cons_self _ _)
    have ht : ∀ y ∈ t, Canonical y := fun y hy => hl y (List.mem_cons_of_mem _ hy)
    refine orderedInsert_sorted ha ?_ (ih ht)
    intro y hy
    exact ht y (((List.perm_insertionSort _ t).mem_iff).mp hy)

theorem bind_ne_emptyInput {α β : Type} {x : Except RationalError α}
    {f : α → Except RationalError β}
    (hx : x ≠ .error RationalError.emptyInput)
    (hf : ∀ a, f a ≠ .error RationalError.emptyInput) :
    (x >>= f) ≠ .error RationalError.emptyInput := by
  cases x with
  | error er =>
    intro h
    have h2 : (Except.error er : Except RationalError β)
        = Except.error RationalError.emptyInput := h
    rw [Except.error.injEq] at h2
    exact hx (by rw [h2])
  | ok a =>
    show f a ≠ Except.error RationalError.emptyInput
    exact hf a

theorem create_ne_emptyInput (n d : Int) :
    Rational.create n d ≠ .error RationalError.emptyInput := by
  unfold Rational.create
  split
  · split
    · simp
    · simp
  · simp

theorem inverted_ne_emptyInput (a : Rational) :
    Rational.inverted a ≠ .error RationalError.emptyInput := by
  unfold Rational.inverted
  split
  · simp
  · exact create_ne_emptyInput _ _

theorem div_ne_emptyInput (a b : Rational) :
    Rational.div a b ≠ .error RationalError.emptyInput := by
  unfold Rational.div
  exact bind_ne_emptyInput (inverted_ne_emptyInput b)
    (fun i => create_ne_emptyInput _ _)

theorem sum_foldlM_ne_emptyInput :
    ∀ (l : List Rational) (seed : Rational),
      l.foldlM Rational.add seed ≠ .error RationalError.emptyInput := by
  intro l
  induction l with
  | nil =>
    intro seed
    intro h
    exact Except.noConfusion h
  | cons x xs ih =>
    intro seed
    show (Rational.add seed x >>= fun s2 => xs.foldlM Rational.add s2)
      ≠ .error RationalError.emptyInput
    exact bind_ne_emptyInput (create_ne_emptyInput _ _) (fun s2 => ih s2)

theorem avg_ne_emptyInput (l : List Rational) :
    Rational.avg l ≠ .error RationalError.emptyInput := by
  unfold Rational.avg Rational.sum
  refine bind_ne_emptyInput (sum_foldlM_ne_emptyInput l Rational.ZERO) (fun s => ?_)
  refine bind_ne_emptyInput ?_ (fun c => div_ne_emptyInput s c)
  show Rational.fromNumber (l.length : Int) ≠ _
  unfold Rational.fromNumber Rational.fromDecimal
  exact create_ne_emptyInput _ _

/-- C7: `median` fails with `EmptyInput` exactly on the empty argument list;
for canonical arguments it sorts the list by `cmp` (a sorted permutation of
the input) and returns the middle element for odd length, or the `avg` of
the two middle elements for even length; e.g. the median of `1, 2, 3` is
`2`. -/
theorem c7_median (l : List Rational) :
    (Rational.median l = .error RationalError.emptyInput ↔ l = [])
      ∧ ((∀ x ∈ l, Canonical x) →
        (List.insertionSort (fun a b => Rational.cmp a b ≤ 0) l).Perm l
          ∧ List.Sorted (fun a b => Rational.cmp a b ≤ 0)
              (List.insertionSort (fun a b => Rational.cmp a b ≤ 0) l)
          ∧ (l ≠ [] →
            Rational.median l =
              (if (List.insertionSort (fun a b => Rational.cmp a b ≤ 0) l).length % 2 = 1 then
                .ok ((List.insertionSort (fun a b => Rational.cmp a b ≤ 0) l).getD
                  ((List.insertionSort (fun a b => Rational.cmp a b ≤ 0) l).length / 2)
                  Rational.ZERO)
              else
                Rational.avg
                  [(List.insertionSort (fun a b => Rational.cmp a b ≤ 0) l).getD
                    ((List.insertionSort (fun a b => Rational.cmp a b ≤ 0) l).length / 2 - 1)
                    Rational.ZERO,
                   (List.insertionSort (fun a b => Rational.cmp a b ≤ 0) l).getD
                    ((List.insertionSort (fun a b => Rational.cmp a b ≤ 0) l).length / 2)
                    Rational.ZERO])))
      ∧ Rational.median [⟨1, 1⟩, ⟨2, 1⟩, ⟨3, 1⟩] = .ok ⟨2, 1⟩ := by
  refine ⟨⟨?_, ?_⟩, ?_, by decide⟩
  · intro h
    by_contra hne
    have hlen : l.length ≠ 0 := fun h0 => hne (List.length_eq_zero.mp h0)
    rw [median_eq, if_pos hlen] at h
    split at h
    · exact absurd h (by simp)
    · exact avg_ne_emptyInput _ h
  · intro h
    subst h
    rfl
  · intro hcan
    refine ⟨List.perm_insertionSort _ l, insertionSort_sorted l hcan, ?_⟩
    intro hne
    have hlen : l.length ≠ 0 := fun h0 => hne (List.length_eq_zero.mp h0)
    rw [median_eq, if_pos hlen]

/-- Witness for C7 at concrete inputs: the empty list and the singleton
`1/2`. -/
theorem c7_median_witness :
    Rational.median ([] : List Rational) = .error RationalError.emptyInput
      ∧ (List.insertionSort (fun a b => Rational.cmp a b ≤ 0) [(⟨1, 2⟩ : Rational)]).Perm
          [(⟨1, 2⟩ : Rational)]
      ∧ Rational.median [(⟨1, 2⟩ : Rational)] = .ok ⟨1, 2⟩ := by
  refine ⟨(c7_median []).1.mpr rfl, ((c7_median [⟨1, 2⟩]).2.1 (by decide)).1, ?_⟩
  have h := ((c7_median [⟨1, 2⟩]).2.1 (by decide)).2.2 (by decide)
  rw [h]
  decide

/-! ### C6 — `roundToSignificants` -/

theorem natToChars_length_digits {m : Nat} (hm : m ≠ 0) :
    (natToChars m).length = (Nat.digits 10 m).length := by
  unfold natToChars
  rw [if_neg hm, natDigitsFuel_eq m m le_rfl, List.length_reverse, List.length_map]

theorem base_pow_pred_le {m : Nat} (hm : m ≠ 0) :
    10 ^ ((Nat.digits 10 m).length - 1) ≤ m := by
  have h := Nat.base_pow_length_digits_le 10 m (by norm_num) hm
  have hlen : 1 ≤ (Nat.digits 10 m).length :=
    List.length_pos.mpr (Nat.digits_ne_nil_iff_ne_zero.mpr hm)
  have heq : 10 ^ (Nat.digits 10 m).length = 10 ^ ((Nat.digits 10 m).length - 1) * 10 := by
    rw [← pow_succ]
    congr 1
    omega
  rw [heq] at h
  omega

theorem digitsLen_eq_of_bounds {m k : Nat} (hk : 1 ≤ k)
    (hlow : 10 ^ (k - 1) ≤ m) (hup : m < 10 ^ k) :
    (Nat.digits 10 m).length = k := by
  have hm : m ≠ 0 := by
    have : 1 ≤ 10 ^ (k - 1) := Nat.one_le_pow _ _ (by norm_num)
    omega
  have h1 : m < 10 ^ (Nat.digits 10 m).length :=
    Nat.lt_base_pow_length_digits (by norm_num)
  have h2 : 10 ^ ((Nat.digits 10 m).length - 1) ≤ m := base_pow_pred_le hm
  have hlen : 1 ≤ (Nat.digits 10 m).length :=
    List.length_pos.mpr (Nat.digits_ne_nil_iff_ne_zero.mpr hm)
  have hk_lt : k - 1 < (Nat.digits 10 m).length := by
    by_contra hcon
    push_neg at hcon
    have : 10 ^ (Nat.digits 10 m).length ≤ 10 ^ (k - 1) :=
      Nat.pow_le_pow_right (by norm_num) hcon
    omega
  have hlen_lt : (Nat.digits 10 m).length - 1 < k := by
    by_contra hcon
    push_neg at hcon
    have : 10 ^ k ≤ 10 ^ ((Nat.digits 10 m).length - 1) :=
      Nat.pow_le_pow_right (by norm_num) hcon
    omega
  omega

theorem natAbs_divide_toZero (a b : Int) :
    (bigint.divide a b .toZero).natAbs = a.natAbs / b.natAbs := by
  show (Int.sign a * Int.sign b * ((a.natAbs / b.natAbs : Nat) : Int)).natAbs = _
  rw [Int.natAbs_mul, Int.natAbs_mul]
  by_cases ha : a = 0
  · subst ha
    simp
  · by_cases hb : b = 0
    · subst hb
      simp
    · rw [Int.natAbs_sign_of_nonzero ha, Int.natAbs_sign_of_nonzero hb]
      rw [one_mul, one_mul]
      exact Int.natAbs_ofNat _

theorem intToChars_length_norm (z : Int) :
    (intToChars z).length - (if z < 0 then 1 else 0) = (natToChars z.natAbs).length := by
  unfold intToChars
  by_cases hz : z < 0
  · rw [if_pos hz, if_pos hz]
    simp
  · rw [if_neg hz, if_neg hz]
    exact Nat.sub_zero _

theorem div_pow_digits_length {q n : Nat} (hn : 1 ≤ n) (hq : 10 ^ n ≤ q) :
    (Nat.digits 10 (q / 10 ^ ((Nat.digits 10 q).length - n))).length = n := by
  have hq0 : q ≠ 0 := by
    have : 1 ≤ 10 ^ n := Nat.one_le_pow _ _ (by norm_num)
    omega
  have hup : q < 10 ^ (Nat.digits 10 q).length :=
    Nat.lt_base_pow_length_digits (by norm_num)
  have hlow : 10 ^ ((Nat.digits 10 q).length - 1) ≤ q := base_pow_pred_le hq0
  have hnK : n < (Nat.digits 10 q).length := by
    by_contra hcon
    push_neg at hcon
    have : 10 ^ (Nat.digits 10 q).length ≤ 10 ^ n :=
      Nat.pow_le_pow_right (by norm_num) hcon
    omega
  have hpow : 0 < 10 ^ ((Nat.digits 10 q).length - n) := pow_pos (by norm_num) _
  apply digitsLen_eq_of_bounds hn
  · rw [Nat.le_div_iff_mul_le hpow]
    calc 10 ^ (n - 1) * 10 ^ ((Nat.digits 10 q).length - n)
        = 10 ^ ((n - 1) + ((Nat.digits 10 q).length - n)) := (pow_add 10 _ _).symm
      _ = 10 ^ ((Nat.digits 10 q).length - 1) := by congr 1; omega
      _ ≤ q := hlow
  · rw [Nat.div_lt_iff_lt_mul hpow]
    calc q < 10 ^ (Nat.digits 10 q).length := hup
      _ = 10 ^ n * 10 ^ ((Nat.digits 10 q).length - n) := by
          rw [← pow_add]
          congr 1
          omega

/-- C6 (amended, default `toZero` rounding): for every value with positive
denominator and nonzero numerator and every `n ≥ 1`,
`roundToSignificants(n, "toZero")` produces a decimal whose significand has
exactly `n` decimal digits; for the `ZERO` singleton the result is
`Decimal.ZERO` under every rounding method. -/
theorem c6_significant_digits :
    (∀ (n : Nat) (m : RoundMethod),
        Rational.roundToSignificants Rational.ZERO n m = Decimal.ZERO)
      ∧ (∀ (a : Rational) (n : Nat), 1 ≤ a.denominator → a.numerator ≠ 0 → 1 ≤ n →
          (Rational.roundToSignificants a n RoundMethod.toZero).significand ≠ 0
            ∧ (natToChars
                ((Rational.roundToSignificants a n RoundMethod.toZero).significand.natAbs)).length
              = n) := by
  constructor
  · intro n m
    rfl
  · intro a n hden hnum hn
    have hZ : a ≠ Rational.ZERO := by
      intro he
      rw [he] at hnum
      exact hnum rfl
    have hN1 : 1 ≤ a.numerator.natAbs := Int.natAbs_pos.mpr hnum
    have hD0 : a.denominator.natAbs ≠ 0 := by
      intro h0
      have := Int.natAbs_eq_zero.mp h0
      omega
    have hDcast : ((a.denominator.natAbs : Nat) : Int) = a.denominator :=
      Int.natAbs_of_nonneg (by omega)
    -- the denominator's printed length
    have hL : Rational.rtsDenominatorLength a
        = (Nat.digits 10 a.denominator.natAbs).length := by
      unfold Rational.rtsDenominatorLength intToChars
      rw [if_neg (by omega : ¬ a.denominator < 0)]
      exact natToChars_length_digits hD0
    have hD_lt : a.denominator.natAbs < 10 ^ (Nat.digits 10 a.denominator.natAbs).length :=
      Nat.lt_base_pow_length_digits (by norm_num)
    -- the extended numerator and its truncating quotient
    have hext : Rational.rtsExtension a n
        = n + (Nat.digits 10 a.denominator.natAbs).length := by
      unfold Rational.rtsExtension
      rw [hL]
    have hEabs : (bigint.e a.numerator ((Rational.rtsExtension a n : Nat) : Int) .toZero).natAbs
        = a.numerator.natAbs * 10 ^ (n + (Nat.digits 10 a.denominator.natAbs).length) := by
      unfold bigint.e
      rw [if_pos (by omega : (0 : Int) ≤ ((Rational.rtsExtension a n : Nat) : Int))]
      rw [Int.natAbs_mul, Int.natAbs_pow]
      rw [show ((10 : Int)).natAbs = 10 from rfl]
      rw [show (((Rational.rtsExtension a n : Nat) : Int)).toNat = Rational.rtsExtension a n
        by omega]
      rw [hext]
    have hdivAbs : (Rational.rtsDiv a n RoundMethod.toZero).natAbs
        = a.numerator.natAbs * 10 ^ (n + (Nat.digits 10 a.denominator.natAbs).length)
            / a.denominator.natAbs := by
      unfold Rational.rtsDiv
      rw [natAbs_divide_toZero, hEabs]
    -- the quotient is at least 10^n
    have hQge : 10 ^ n ≤ a.numerator.natAbs
        * 10 ^ (n + (Nat.digits 10 a.denominator.natAbs).length) / a.denominator.natAbs := by
      rw [Nat.le_div_iff_mul_le (Nat.pos_of_ne_zero hD0)]
      have h1 : 10 ^ n * a.denominator.natAbs
          < 10 ^ n * 10 ^ (Nat.digits 10 a.denominator.natAbs).length :=
        mul_lt_mul_of_pos_left hD_lt (pow_pos (by norm_num) _)
      have h2 : 10 ^ n * 10 ^ (Nat.digits 10 a.denominator.natAbs).length
          = 10 ^ (n + (Nat.digits 10 a.denominator.natAbs).length) := (pow_add 10 _ _).symm
      have h3 : 10 ^ (n + (Nat.digits 10 a.denominator.natAbs).length)
          ≤ a.numerator.natAbs * 10 ^ (n + (Nat.digits 10 a.denominator.natAbs).length) :=
        Nat.le_mul_of_pos_left _ (by omega)
      omega
    have hQ0 : a.numerator.natAbs
        * 10 ^ (n + (Nat.digits 10 a.denominator.natAbs).length) / a.denominator.natAbs ≠ 0 := by
      have : 1 ≤ 10 ^ n := Nat.one_le_pow _ _ (by norm_num)
      omega
    -- divLength is the digit length of the quotient
    have hdivLen : Rational.rtsDivLength a n RoundMethod.toZero
        = (Nat.digits 10 (a.numerator.natAbs
            * 10 ^ (n + (Nat.digits 10 a.denominator.natAbs).length)
            / a.denominator.natAbs)).length := by
      unfold Rational.rtsDivLength
      rw [intToChars_length_norm, hdivAbs, natToChars_length_digits hQ0]
    have hKn : n < (Nat.digits 10 (a.numerator.natAbs
        * 10 ^ (n + (Nat.digits 10 a.denominator.natAbs).length)
        / a.denominator.natAbs)).length := by
      by_contra hcon
      push_neg at hcon
      have hup := Nat.lt_base_pow_length_digits
        (b := 10) (m := a.numerator.natAbs
          * 10 ^ (n + (Nat.digits 10 a.denominator.natAbs).length) / a.denominator.natAbs)
        (by norm_num)
      have : 10 ^ (Nat.digits 10 (a.numerator.natAbs
          * 10 ^ (n + (Nat.digits 10 a.denominator.natAbs).length)
          / a.denominator.natAbs)).length ≤ 10 ^ n :=
        Nat.pow_le_pow_right (by norm_num) hcon
      omega
    have hsurplus : Rational.rtsDigitsSurplus a n RoundMethod.toZero
        = ((Nat.digits 10 (a.numerator.natAbs
            * 10 ^ (n + (Nat.digits 10 a.denominator.natAbs).length)
            / a.denominator.natAbs)).length : Int) - (n : Int) := by
      unfold Rational.rtsDigitsSurplus
      rw [hdivLen]
    -- the trimmed significand
    have hsig : (bigint.e (Rational.rtsDiv a n RoundMethod.toZero)
        (-(Rational.rtsDigitsSurplus a n RoundMethod.toZero)) RoundMethod.toZero).natAbs
        = a.numerator.natAbs * 10 ^ (n + (Nat.digits 10 a.denominator.natAbs).length)
            / a.denominator.natAbs
          / 10 ^ ((Nat.digits 10 (a.numerator.natAbs
              * 10 ^ (n + (Nat.digits 10 a.denominator.natAbs).length)
              / a.denominator.natAbs)).length - n) := by
      rw [hsurplus]
      unfold bigint.e
      rw [if_neg (by omega)]
      rw [natAbs_divide_toZero, hdivAbs]
      congr 1
      rw [neg_neg, Int.natAbs_pow]
      rw [show ((10 : Int)).natAbs = 10 from rfl]
      congr 1
      omega
    have hlen := div_pow_digits_length hn hQge
    have hfinal : (Rational.roundToSignificants a n RoundMethod.toZero).significand
        = bigint.e (Rational.rtsDiv a n RoundMethod.toZero)
            (-(Rational.rtsDigitsSurplus a n RoundMethod.toZero)) RoundMethod.toZero := by
      unfold Rational.roundToSignificants
      rw [if_neg hZ]
      rfl
    have hS0 : a.numerator.natAbs * 10 ^ (n + (Nat.digits 10 a.denominator.natAbs).length)
        / a.denominator.natAbs
        / 10 ^ ((Nat.digits 10 (a.numerator.natAbs
            * 10 ^ (n + (Nat.digits 10 a.denominator.natAbs).length)
            / a.denominator.natAbs)).length - n) ≠ 0 := by
      intro h0
      rw [h0] at hlen
      simp at hlen
      omega
    constructor
    · rw [hfinal]
      intro h0
      rw [show (bigint.e (Rational.rtsDiv a n RoundMethod.toZero)
          (-(Rational.rtsDigitsSurplus a n RoundMethod.toZero)) RoundMethod.toZero).natAbs = 0
        from by rw [h0]; rfl] at hsig
      exact hS0 hsig.symm
    · rw [hfinal, hsig, natToChars_length_digits hS0]
      exact hlen

/-- C6 counterexample: under the away-from-zero rounding method the trimming
pass can carry into an extra digit — `roundToSignificants(2, "fromZero")` on
the canonical nonzero value `999` yields significand `100`, which has three
significant digits, not two. -/
theorem c6_counterexample :
    Canonical ⟨999, 1⟩ ∧ (⟨999, 1⟩ : Rational) ≠ Rational.ZERO
      ∧ (Rational.roundToSignificants ⟨999, 1⟩ 2 RoundMethod.fromZero).significand = 100
      ∧ (natToChars
          ((Rational.roundToSignificants ⟨999, 1⟩ 2 RoundMethod.fromZero).significand.natAbs)).length
        = 3
      ∧ (natToChars
          ((Rational.roundToSignificants ⟨999, 1⟩ 2 RoundMethod.fromZero).significand.natAbs)).length
        ≠ 2 := by
  decide

/-- Witness for C6 at the concrete canonical value `-1/3` with `n = 4`:
the significand of the result has exactly four digits. -/
theorem c6_significant_digits_witness :
    (Rational.roundToSignificants ⟨-1, 3⟩ 4 RoundMethod.toZero).significand ≠ 0
      ∧ (natToChars
          ((Rational.roundToSignificants ⟨-1, 3⟩ 4 RoundMethod.toZero).significand.natAbs)).length
        = 4 :=
  c6_significant_digits.2 ⟨-1, 3⟩ 4 (by decide) (by decide) (by decide)
